import Mathlib

/-!
# Verification of the `darkly` line-buffered scanner

Shallow embedding of `src/scan/src/lib.rs`: the `LineReadScanner` type and
its public `Scanner` operations (`expect`, `has_next`, `next`, `scan_str`,
`scan_str_to`, `scan`, `scan_to`).

Modelling conventions:
* Rust strings (`String` / `&str`) are `List Char`; byte positions and byte
  lengths are computed through the UTF-8 size of each character, exactly as
  Rust's byte-indexed `str` API does.
* The buffered reader over an in-memory input text (`scan_str(input)` /
  `BufReader`) is the list of characters not yet consumed from the input.
* A `&mut str` destination buffer is its list of UTF-8 bytes (`List Nat`).
* Fallible Rust operations return `Except (List Char) α` (the `Err` payload
  is a string).  A Rust panic — string slicing at a non-boundary byte index,
  or the `assert!` in `copy_str` — is modelled as `none` in an outer
  `Option`: a panicking call returns no result and no successor state.
-/

namespace Darkly

/-- Rust `char::len_utf8` (the number of bytes of `c` in UTF-8). -/
def utf8Size (c : Char) : Nat :=
  if c.toNat < 0x80 then 1
  else if c.toNat < 0x800 then 2
  else if c.toNat < 0x10000 then 3
  else 4

/-- Rust `str::len` (byte length) of a string given as its characters. -/
def utf8Len (l : List Char) : Nat := (l.map utf8Size).sum

/-- Rust `char::encode_utf8`: the UTF-8 bytes of one character. -/
def utf8EncodeChar (c : Char) : List Nat :=
  if c.toNat < 0x80 then [c.toNat]
  else if c.toNat < 0x800 then [0xC0 + c.toNat / 0x40, 0x80 + c.toNat % 0x40]
  else if c.toNat < 0x10000 then
    [0xE0 + c.toNat / 0x1000, 0x80 + (c.toNat / 0x40) % 0x40, 0x80 + c.toNat % 0x40]
  else
    [0xF0 + c.toNat / 0x40000, 0x80 + (c.toNat / 0x1000) % 0x40,
     0x80 + (c.toNat / 0x40) % 0x40, 0x80 + c.toNat % 0x40]

/-- `str::as_bytes`: the UTF-8 bytes of a string. -/
def utf8Encode : List Char → List Nat
  | [] => []
  | c :: cs => utf8EncodeChar c ++ utf8Encode cs

theorem utf8Size_pos (c : Char) : 1 ≤ utf8Size c := by
  unfold utf8Size
  split
  · exact Nat.le_refl 1
  · split
    · exact Nat.le_of_lt Nat.one_lt_two
    · split
      · omega
      · omega

@[simp] theorem utf8Len_nil : utf8Len [] = 0 := rfl

@[simp] theorem utf8Len_cons (c : Char) (l : List Char) :
    utf8Len (c :: l) = utf8Size c + utf8Len l := rfl

theorem utf8Len_append (a b : List Char) :
    utf8Len (a ++ b) = utf8Len a + utf8Len b := by
  induction a with
  | nil => simp
  | cons c cs ih => simp [ih, Nat.add_assoc]

theorem utf8Len_pos (l : List Char) (h : l ≠ []) : 0 < utf8Len l := by
  cases l with
  | nil => exact absurd rfl h
  | cons c cs =>
    have := utf8Size_pos c
    simp only [utf8Len_cons]
    omega

theorem length_utf8EncodeChar (c : Char) :
    (utf8EncodeChar c).length = utf8Size c := by
  unfold utf8EncodeChar utf8Size
  split_ifs <;> simp

theorem length_utf8Encode (l : List Char) :
    (utf8Encode l).length = utf8Len l := by
  induction l with
  | nil => rfl
  | cons c cs ih =>
    simp [utf8Encode, length_utf8EncodeChar, ih]

/-- Rust `&s[pos..]` on a UTF-8 string: drop the first `pos` bytes.
`none` models the panic raised when `pos` is not on a character boundary
or exceeds the byte length of `s`. -/
def byteDrop : List Char → Nat → Option (List Char)
  | l, 0 => some l
  | [], _ + 1 => none
  | c :: cs, n + 1 =>
    if utf8Size c ≤ n + 1 then byteDrop cs (n + 1 - utf8Size c) else none

theorem byteDrop_add (l : List Char) :
    ∀ n r, byteDrop l n = some r → n + utf8Len r = utf8Len l := by
  induction l with
  | nil =>
    intro n r h
    cases n with
    | zero => simp [byteDrop] at h; subst h; simp
    | succ m => simp [byteDrop] at h
  | cons c cs ih =>
    intro n r h
    cases n with
    | zero => simp [byteDrop] at h; subst h; simp
    | succ m =>
      simp only [byteDrop] at h
      split at h
      · have := ih (m + 1 - utf8Size c) r h
        simp only [utf8Len_cons]
        omega
      · exact absurd h (by simp)

/-- First occurrence of the pattern `p` in `l`, i.e. Rust
`l.match_indices(p).next()`: `some (pre, post)` splits `l` as
`pre ++ p ++ post` around the leftmost match (the matched text is `p`
itself and its byte index is `utf8Len pre`); `none` means no match.
Both string patterns and single-character patterns (a one-element `p`)
are covered. -/
def firstSplit (p : List Char) : List Char → Option (List Char × List Char)
  | [] => if p.isPrefixOf [] then some ([], []) else none
  | c :: cs =>
    if p.isPrefixOf (c :: cs) then some ([], (c :: cs).drop p.length)
    else (firstSplit p cs).map fun q => (c :: q.1, q.2)

theorem isPrefixOf_eq_append (p : List Char) :
    ∀ l : List Char, p.isPrefixOf l = true → l = p ++ l.drop p.length := by
  induction p with
  | nil => intro l _; simp
  | cons a as ih =>
    intro l h
    cases l with
    | nil => simp [List.isPrefixOf] at h
    | cons b bs =>
      simp only [List.isPrefixOf, Bool.and_eq_true, beq_iff_eq] at h
      obtain ⟨rfl, h2⟩ := h
      simpa using ih bs h2

theorem firstSplit_eq (p : List Char) :
    ∀ l pre post, firstSplit p l = some (pre, post) → l = pre ++ p ++ post := by
  intro l
  induction l with
  | nil =>
    intro pre post h
    simp only [firstSplit] at h
    split at h
    · next hp =>
      simp only [Option.some.injEq, Prod.mk.injEq] at h
      obtain ⟨rfl, rfl⟩ := h
      simpa using isPrefixOf_eq_append p [] hp
    · simp at h
  | cons c cs ih =>
    intro pre post h
    simp only [firstSplit] at h
    split at h
    · next hp =>
      simp only [Option.some.injEq, Prod.mk.injEq] at h
      obtain ⟨rfl, rfl⟩ := h
      simpa using isPrefixOf_eq_append p (c :: cs) hp
    · simp only [Option.map_eq_some'] at h
      obtain ⟨⟨pre', post'⟩, hfs, heq⟩ := h
      have h1 : c :: pre' = pre := congrArg Prod.fst heq
      have h2 : post' = post := congrArg Prod.snd heq
      subst h1; subst h2
      have := ih pre' post' hfs
      simp [this]

/-- Rust `copy_str` (lib.rs 232-239): overwrite the first `count` bytes of
the destination `d` with the first `count` bytes of the source `s`.
`none` models the `assert!(count <= to.len())` panic.  (The raw
`ptr::copy_nonoverlapping` would also read out of bounds if
`count > s.length`; the call-site bound is proved separately.) -/
def copy_str (s d : List Nat) (count : Nat) : Option (List Nat) :=
  if count ≤ d.length then some (s.take count ++ d.drop count) else none

/-- The one raw line `BufRead::read_line` appends (lib.rs 88): everything
up to and including the first `'\n'`, or the whole input if it has none.
Returns the raw line and the input left after it.  (Splitting the byte
stream at byte `0x0A` coincides with splitting the character stream at
`'\n'`, because in UTF-8 no multi-byte character contains the byte
`0x0A`.) -/
def readLineRaw : List Char → List Char × List Char
  | [] => ([], [])
  | c :: cs =>
    if c = '\n' then ([c], cs)
    else
      let q := readLineRaw cs
      (c :: q.1, q.2)

/-- Lines 92-96 of `read_line`: the trailing-newline strip.  The Rust code
tests `&s[s.len() - 1..] == "\n"`, a slice starting one BYTE before the
end: when the final character of `s` is multi-byte this byte index is not
a character boundary and the slice panics (`none`). -/
def stripNl (s : List Char) : Option (List Char) :=
  match s.getLast? with
  | none => some s
  | some c =>
    if utf8Size c = 1 then
      if c = '\n' then some s.dropLast else some s
    else none

/-- The loop of `advance_line` (lib.rs 104-117) acting on the reader:
starting from a state whose buffered line (if any) is spent, repeatedly
`read_line` (lib.rs 86-100) until a line with unread content is buffered
(`cur_pos = 0 < len`) or a zero-byte read ends the input.  Returns the
new `cur_line` and the input remaining after it.  A raw line strips to
the empty line — failing the `0 < len` check and continuing the loop —
exactly when it is `"\n"` alone, i.e. when the input starts with `'\n'`;
that case is taken out front so the recursion is structural. -/
def skipToLine : List Char → Option (Option (List Char) × List Char)
  | [] => some (none, [])
  | c :: cs =>
    if c = '\n' then skipToLine cs
    else
      let q := readLineRaw (c :: cs)
      (stripNl q.1).map fun l => (some l, q.2)

theorem getLast?_eq_append (s : List Char) :
    ∀ d, s.getLast? = some d → s = s.dropLast ++ [d] := by
  induction s with
  | nil => intro d h; simp at h
  | cons a t ih =>
    intro d h
    cases t with
    | nil => simp_all
    | cons b u =>
      rw [List.getLast?_cons_cons] at h
      have := ih d h
      calc a :: b :: u = a :: (b :: u) := rfl
        _ = a :: ((b :: u).dropLast ++ [d]) := by rw [← this]
        _ = (a :: b :: u).dropLast ++ [d] := by simp

theorem stripNl_cases (s l : List Char) (h : stripNl s = some l) :
    l = s ∨ s = l ++ ['\n'] := by
  cases hg : s.getLast? with
  | none =>
    simp only [stripNl, hg, Option.some.injEq] at h
    exact Or.inl h.symm
  | some c =>
    simp only [stripNl, hg] at h
    split_ifs at h with h1 h2
    · simp only [Option.some.injEq] at h
      right
      rw [← h, ← h2]
      exact getLast?_eq_append s c hg
    · simp only [Option.some.injEq] at h
      exact Or.inl h.symm

theorem skipToLine_none (input rest : List Char)
    (h : skipToLine input = some (none, rest)) : rest = [] := by
  induction input with
  | nil => simp [skipToLine] at h; exact h
  | cons c cs ih =>
    simp only [skipToLine] at h
    split at h
    · exact ih h
    · simp only [Option.map_eq_some'] at h
      obtain ⟨l, _, heq⟩ := h
      exact absurd (congrArg Prod.fst heq) (by simp)

theorem skipToLine_line_ne_nil (input l rest : List Char)
    (h : skipToLine input = some (some l, rest)) : l ≠ [] := by
  induction input with
  | nil => simp [skipToLine] at h
  | cons c cs ih =>
    simp only [skipToLine] at h
    split at h
    · exact ih h
    · next hc =>
      simp only [Option.map_eq_some'] at h
      obtain ⟨l', hstrip, heq⟩ := h
      have hl : l' = l := by
        have := congrArg Prod.fst heq; simpa using this
      subst hl
      intro hnil
      subst hnil
      rcases stripNl_cases _ _ hstrip with h1 | h1
      · -- the raw line would be empty, but it starts with `c`
        have : (readLineRaw (c :: cs)).1 = c :: (readLineRaw cs).1 := by
          simp [readLineRaw, hc]
        rw [this] at h1
        simp at h1
      · -- the raw line would be exactly "\n", but it starts with `c ≠ '\n'`
        have : (readLineRaw (c :: cs)).1 = c :: (readLineRaw cs).1 := by
          simp [readLineRaw, hc]
        rw [this] at h1
        simp only [List.nil_append] at h1
        have : c = '\n' := by
          have := congrArg (fun t => t.head?) h1
          simpa using this
        exact hc this

/-- The scanner state (lib.rs 71-75).  `reader` is the buffered reader
over the input text, modelled as the characters not yet consumed from
it. -/
structure ScannerState where
  reader : List Char
  cur_line : Option (List Char)
  cur_pos : Nat
deriving DecidableEq

namespace LineReadScanner

/-- `LineReadScanner::new` (lib.rs 78-84), as used by the `scan_str`
constructor on an input text (lib.rs 47-49). -/
def new (input : List Char) : ScannerState := ⟨input, none, 0⟩

/-- `advance_line` (lib.rs 104-117): if the buffered line still has unread
content keep the state; otherwise read lines until one has content or the
input ends. -/
def advance_line (st : ScannerState) : Option ScannerState :=
  match st.cur_line with
  | some line =>
    if st.cur_pos < utf8Len line then some st
    else (skipToLine st.reader).map fun q => ⟨q.2, q.1, 0⟩
  | none => (skipToLine st.reader).map fun q => ⟨q.2, q.1, 0⟩

/-- `expect` (lib.rs 136-146): succeed iff the first match of `p` in the
remainder `&line[cur_pos..]` is at index 0; then advance by the matched
byte length and return it, else fail with the remainder. -/
def expect (p : List Char) (st : ScannerState) :
    Option (Except (List Char) Nat × ScannerState) :=
  match advance_line st with
  | none => none
  | some stc =>
    match stc.cur_line with
    | none => some (Except.error [], stc)
    | some line =>
      match byteDrop line stc.cur_pos with
      | none => none
      | some rest =>
        match firstSplit p rest with
        | some ([], _) =>
          some (Except.ok (utf8Len p),
                { stc with cur_pos := stc.cur_pos + utf8Len p })
        | some (_ :: _, _) => some (Except.error rest, stc)
        | none => some (Except.error rest, stc)

/-- `has_next` (lib.rs 148-151). -/
def has_next (st : ScannerState) : Option (Bool × ScannerState) :=
  (advance_line st).map fun stc => (stc.cur_line.isSome, stc)

/-- `next` (lib.rs 153-169): pop one character; on any `Err` result the
outer code additionally sets `cur_line = None`. -/
def next (st : ScannerState) : Option (Except (List Char) Char × ScannerState) :=
  match advance_line st with
  | none => none
  | some stc =>
    match stc.cur_line with
    | none => some (Except.error [], { stc with cur_line := none })
    | some line =>
      match byteDrop line stc.cur_pos with
      | none => none
      | some rest =>
        match rest with
        | c :: _ =>
          some (Except.ok c, { stc with cur_pos := stc.cur_pos + utf8Size c })
        | [] => some (Except.error [], { stc with cur_line := none })

/-- `scan_str` (lib.rs 171-179): copy `min (result.len) (rest.len)` bytes
of the remainder into the destination buffer `result` (given as UTF-8
bytes) and advance the cursor by that byte count; the returned value is
`result.len`, the destination's total capacity. -/
def scan_str (result : List Nat) (st : ScannerState) :
    Option (Except (List Char) Nat × List Nat × ScannerState) :=
  match advance_line st with
  | none => none
  | some stc =>
    match stc.cur_line with
    | none => some (Except.error [], result, stc)
    | some line =>
      match byteDrop line stc.cur_pos with
      | none => none
      | some rest =>
        match copy_str (utf8Encode rest) result
                (min result.length (utf8Len rest)) with
        | none => none
        | some result' =>
          some (Except.ok result.length, result',
                { stc with cur_pos :=
                    stc.cur_pos + min result.length (utf8Len rest) })

/-- `scan_str_to` (lib.rs 181-200): find the first match of `p` in the
remainder; copy `min (result.len) index` bytes before it into `result`
and advance the cursor past the match; with no match, fail with the whole
remainder and change nothing. -/
def scan_str_to (result : List Nat) (p : List Char) (st : ScannerState) :
    Option (Except (List Char) Nat × List Nat × ScannerState) :=
  match advance_line st with
  | none => none
  | some stc =>
    match stc.cur_line with
    | none => some (Except.error [], result, stc)
    | some line =>
      match byteDrop line stc.cur_pos with
      | none => none
      | some rest =>
        match firstSplit p rest with
        | some (pre, _) =>
          match copy_str (utf8Encode rest) result
                  (min result.length (utf8Len pre)) with
          | none => none
          | some result' =>
            some (Except.ok result.length, result',
                  { stc with cur_pos :=
                      stc.cur_pos + (utf8Len pre + utf8Len p) })
        | none => some (Except.error rest, result, stc)

/-- `scan_internal` (lib.rs 130-132): `parse` stands for `T::from_str`;
a parse failure is reported with the input text as payload. -/
def scan_internal {T : Type} (parse : List Char → Option T)
    (input : List Char) : Except (List Char) T :=
  match parse input with
  | some t => Except.ok t
  | none => Except.error input

/-- `scan` (lib.rs 202-209): parse the whole remainder, then
unconditionally set `cur_line = None`. -/
def scan {T : Type} (parse : List Char → Option T) (st : ScannerState) :
    Option (Except (List Char) T × ScannerState) :=
  match advance_line st with
  | none => none
  | some stc =>
    match stc.cur_line with
    | none => some (Except.error [], { stc with cur_line := none })
    | some line =>
      match byteDrop line stc.cur_pos with
      | none => none
      | some rest =>
        some (scan_internal parse rest, { stc with cur_line := none })

/-- `scan_to` (lib.rs 212-228): find the first match of `p` in the
remainder, advance the cursor past it and parse the text before it; with
no match, fail with the whole remainder and change nothing. -/
def scan_to {T : Type} (parse : List Char → Option T) (p : List Char)
    (st : ScannerState) : Option (Except (List Char) T × ScannerState) :=
  match advance_line st with
  | none => none
  | some stc =>
    match stc.cur_line with
    | none => some (Except.error [], stc)
    | some line =>
      match byteDrop line stc.cur_pos with
      | none => none
      | some rest =>
        match firstSplit p rest with
        | some (pre, _) =>
          some (scan_internal parse pre,
                { stc with cur_pos := stc.cur_pos + (utf8Len pre + utf8Len p) })
        | none => some (Except.error rest, stc)

end LineReadScanner

namespace LineReadScanner

/-- Exhaustive description of a successful `advance_line`: either the
buffered line still had unread content and the state is untouched, or the
reader was consulted through the read loop. -/
theorem advance_line_cases (st st' : ScannerState)
    (h : advance_line st = some st') :
    (st' = st ∧ ∃ line, st.cur_line = some line ∧ st.cur_pos < utf8Len line) ∨
    (∃ ol rest, skipToLine st.reader = some (ol, rest) ∧ st' = ⟨rest, ol, 0⟩) := by
  cases hl : st.cur_line with
  | some line =>
    simp only [advance_line, hl] at h
    split at h
    · next hlt =>
      simp only [Option.some.injEq] at h
      exact Or.inl ⟨h.symm, line, rfl, hlt⟩
    · cases hs : skipToLine st.reader with
      | none => rw [hs] at h; simp at h
      | some q =>
        obtain ⟨ol, rest⟩ := q
        rw [hs] at h
        simp only [Option.map_some', Option.some.injEq] at h
        exact Or.inr ⟨ol, rest, rfl, h.symm⟩
  | none =>
    simp only [advance_line, hl] at h
    cases hs : skipToLine st.reader with
    | none => rw [hs] at h; simp at h
    | some q =>
      obtain ⟨ol, rest⟩ := q
      rw [hs] at h
      simp only [Option.map_some', Option.some.injEq] at h
      exact Or.inr ⟨ol, rest, rfl, h.symm⟩

/-- After a successful `advance_line` the state is canonical: a buffered
line always has unread content. -/
theorem advance_canonical (st st' : ScannerState)
    (h : advance_line st = some st') :
    ∀ l, st'.cur_line = some l → st'.cur_pos < utf8Len l := by
  rcases advance_line_cases st st' h with ⟨rfl, line, hl, hlt⟩ | ⟨ol, rest, hs, rfl⟩
  · intro l h2
    rw [hl] at h2
    simp only [Option.some.injEq] at h2
    subst h2
    exact hlt
  · intro l h2
    simp only at h2
    subst h2
    simpa using utf8Len_pos l (skipToLine_line_ne_nil st.reader l rest hs)

/-- A canonical state with no buffered line has an exhausted reader and a
zero cursor. -/
theorem advance_none_state (st st' : ScannerState)
    (h : advance_line st = some st') (hl : st'.cur_line = none) :
    st' = ⟨[], none, 0⟩ := by
  rcases advance_line_cases st st' h with ⟨rfl, line, hl2, _⟩ | ⟨ol, rest, hs, rfl⟩
  · rw [hl2] at hl; cases hl
  · simp only at hl
    subst hl
    have := skipToLine_none st.reader rest hs
    subst this
    rfl

/-- `advance_line` is idempotent: running it on its own output changes
nothing. -/
theorem advance_idem (st st' : ScannerState)
    (h : advance_line st = some st') : advance_line st' = some st' := by
  cases hl : st'.cur_line with
  | some line =>
    have hcan := advance_canonical st st' h
    simp only [advance_line, hl]
    rw [if_pos (hcan line hl)]
  | none =>
    have := advance_none_state st st' h hl
    subst this
    rfl

/-- How any public operation can change the state: it first canonicalizes
through `advance_line`, and then either leaves the canonical state alone,
or sets `cur_line` to `none`, or advances the cursor by at most the byte
length of the remainder. -/
def StepShape (st st' : ScannerState) : Prop :=
  ∃ stc, advance_line st = some stc ∧
    (st' = stc ∨ st' = { stc with cur_line := none } ∨
     ∃ line rest k, stc.cur_line = some line ∧
       byteDrop line stc.cur_pos = some rest ∧ k ≤ utf8Len rest ∧
       st' = { stc with cur_pos := stc.cur_pos + k })

theorem expect_shape (p : List Char) (st : ScannerState)
    (r : Except (List Char) Nat) (st' : ScannerState)
    (h : expect p st = some (r, st')) : StepShape st st' := by
  cases ha : advance_line st with
  | none => simp [expect, ha] at h
  | some stc =>
    refine ⟨stc, ha, ?_⟩
    cases hl : stc.cur_line with
    | none =>
      simp only [expect, ha, hl, Option.some.injEq, Prod.mk.injEq] at h
      exact Or.inl h.2.symm
    | some line =>
      cases hd : byteDrop line stc.cur_pos with
      | none => simp [expect, ha, hl, hd] at h
      | some rest =>
        cases hfs : firstSplit p rest with
        | none =>
          simp only [expect, ha, hl, hd, hfs, Option.some.injEq,
            Prod.mk.injEq] at h
          exact Or.inl h.2.symm
        | some q =>
          obtain ⟨pre, post⟩ := q
          cases pre with
          | nil =>
            simp only [expect, ha, hl, hd, hfs, Option.some.injEq,
              Prod.mk.injEq] at h
            refine Or.inr (Or.inr ⟨line, rest, utf8Len p, rfl, hd, ?_, h.2.symm⟩)
            have := firstSplit_eq p rest [] post hfs
            rw [this]
            simp [utf8Len_append]
          | cons a pre' =>
            simp only [expect, ha, hl, hd, hfs, Option.some.injEq,
              Prod.mk.injEq] at h
            exact Or.inl h.2.symm

theorem has_next_shape (st : ScannerState) (b : Bool) (st' : ScannerState)
    (h : has_next st = some (b, st')) : StepShape st st' := by
  cases ha : advance_line st with
  | none => simp [has_next, ha] at h
  | some stc =>
    simp only [has_next, ha, Option.map_some', Option.some.injEq,
      Prod.mk.injEq] at h
    exact ⟨stc, ha, Or.inl h.2.symm⟩

theorem next_shape (st : ScannerState) (r : Except (List Char) Char)
    (st' : ScannerState) (h : next st = some (r, st')) : StepShape st st' := by
  cases ha : advance_line st with
  | none => simp [next, ha] at h
  | some stc =>
    refine ⟨stc, ha, ?_⟩
    cases hl : stc.cur_line with
    | none =>
      simp only [next, ha, hl, Option.some.injEq, Prod.mk.injEq] at h
      exact Or.inr (Or.inl h.2.symm)
    | some line =>
      cases hd : byteDrop line stc.cur_pos with
      | none => simp [next, ha, hl, hd] at h
      | some rest =>
        cases rest with
        | nil =>
          simp only [next, ha, hl, hd, Option.some.injEq, Prod.mk.injEq] at h
          exact Or.inr (Or.inl h.2.symm)
        | cons c cs =>
          simp only [next, ha, hl, hd, Option.some.injEq, Prod.mk.injEq] at h
          refine Or.inr (Or.inr ⟨line, c :: cs, utf8Size c, rfl, hd, ?_,
            h.2.symm⟩)
          simp only [utf8Len_cons]
          omega

theorem scan_str_shape (result : List Nat) (st : ScannerState)
    (r : Except (List Char) Nat) (result' : List Nat) (st' : ScannerState)
    (h : scan_str result st = some (r, result', st')) : StepShape st st' := by
  cases ha : advance_line st with
  | none => simp [scan_str, ha] at h
  | some stc =>
    refine ⟨stc, ha, ?_⟩
    cases hl : stc.cur_line with
    | none =>
      simp only [scan_str, ha, hl, Option.some.injEq, Prod.mk.injEq] at h
      exact Or.inl h.2.2.symm
    | some line =>
      cases hd : byteDrop line stc.cur_pos with
      | none => simp [scan_str, ha, hl, hd] at h
      | some rest =>
        cases hc : copy_str (utf8Encode rest) result
            (min result.length (utf8Len rest)) with
        | none => simp [scan_str, ha, hl, hd, hc] at h
        | some res' =>
          simp only [scan_str, ha, hl, hd, hc, Option.some.injEq,
            Prod.mk.injEq] at h
          exact Or.inr (Or.inr ⟨line, rest, min result.length (utf8Len rest),
            rfl, hd, Nat.min_le_right _ _, h.2.2.symm⟩)

theorem scan_str_to_shape (result : List Nat) (p : List Char)
    (st : ScannerState) (r : Except (List Char) Nat) (result' : List Nat)
    (st' : ScannerState) (h : scan_str_to result p st = some (r, result', st')) :
    StepShape st st' := by
  cases ha : advance_line st with
  | none => simp [scan_str_to, ha] at h
  | some stc =>
    refine ⟨stc, ha, ?_⟩
    cases hl : stc.cur_line with
    | none =>
      simp only [scan_str_to, ha, hl, Option.some.injEq, Prod.mk.injEq] at h
      exact Or.inl h.2.2.symm
    | some line =>
      cases hd : byteDrop line stc.cur_pos with
      | none => simp [scan_str_to, ha, hl, hd] at h
      | some rest =>
        cases hfs : firstSplit p rest with
        | none =>
          simp only [scan_str_to, ha, hl, hd, hfs, Option.some.injEq,
            Prod.mk.injEq] at h
          exact Or.inl h.2.2.symm
        | some q =>
          obtain ⟨pre, post⟩ := q
          cases hc : copy_str (utf8Encode rest) result
              (min result.length (utf8Len pre)) with
          | none => simp [scan_str_to, ha, hl, hd, hfs, hc] at h
          | some res' =>
            simp only [scan_str_to, ha, hl, hd, hfs, hc, Option.some.injEq,
              Prod.mk.injEq] at h
            refine Or.inr (Or.inr ⟨line, rest, utf8Len pre + utf8Len p,
              rfl, hd, ?_, h.2.2.symm⟩)
            have := firstSplit_eq p rest pre post hfs
            rw [this]
            simp [utf8Len_append]

theorem scan_shape {T : Type} (parse : List Char → Option T)
    (st : ScannerState) (r : Except (List Char) T) (st' : ScannerState)
    (h : scan parse st = some (r, st')) : StepShape st st' := by
  cases ha : advance_line st with
  | none => simp [scan, ha] at h
  | some stc =>
    refine ⟨stc, ha, ?_⟩
    cases hl : stc.cur_line with
    | none =>
      simp only [scan, ha, hl, Option.some.injEq, Prod.mk.injEq] at h
      exact Or.inr (Or.inl h.2.symm)
    | some line =>
      cases hd : byteDrop line stc.cur_pos with
      | none => simp [scan, ha, hl, hd] at h
      | some rest =>
        simp only [scan, ha, hl, hd, Option.some.injEq, Prod.mk.injEq] at h
        exact Or.inr (Or.inl h.2.symm)

theorem scan_to_shape {T : Type} (parse : List Char → Option T)
    (p : List Char) (st : ScannerState) (r : Except (List Char) T)
    (st' : ScannerState) (h : scan_to parse p st = some (r, st')) :
    StepShape st st' := by
  cases ha : advance_line st with
  | none => simp [scan_to, ha] at h
  | some stc =>
    refine ⟨stc, ha, ?_⟩
    cases hl : stc.cur_line with
    | none =>
      simp only [scan_to, ha, hl, Option.some.injEq, Prod.mk.injEq] at h
      exact Or.inl h.2.symm
    | some line =>
      cases hd : byteDrop line stc.cur_pos with
      | none => simp [scan_to, ha, hl, hd] at h
      | some rest =>
        cases hfs : firstSplit p rest with
        | none =>
          simp only [scan_to, ha, hl, hd, hfs, Option.some.injEq,
            Prod.mk.injEq] at h
          exact Or.inl h.2.symm
        | some q =>
          obtain ⟨pre, post⟩ := q
          simp only [scan_to, ha, hl, hd, hfs, Option.some.injEq,
            Prod.mk.injEq] at h
          refine Or.inr (Or.inr ⟨line, rest, utf8Len pre + utf8Len p,
            rfl, hd, ?_, h.2.symm⟩)
          have := firstSplit_eq p rest pre post hfs
          rw [this]
          simp [utf8Len_append]

/-- Any single public operation keeps the cursor at or before the end of
the buffered line. -/
theorem shape_cursor_le (st st' : ScannerState) (h : StepShape st st') :
    ∀ l, st'.cur_line = some l → st'.cur_pos ≤ utf8Len l := by
  obtain ⟨stc, ha, hcase⟩ := h
  have hcan := advance_canonical st stc ha
  rcases hcase with h1 | h1 | ⟨line, rest, k, hl, hd, hk, h1⟩
  · subst h1
    intro l h2
    exact Nat.le_of_lt (hcan l h2)
  · subst h1
    intro l h2
    simp at h2
  · subst h1
    intro l h2
    simp only at h2
    rw [hl] at h2
    simp only [Option.some.injEq] at h2
    subst h2
    have := byteDrop_add line stc.cur_pos rest hd
    simp only
    omega

/-- A canonical state with a buffered line has a nonempty remainder
whenever the slice `&line[cur_pos..]` is defined. -/
theorem canonical_rest_ne_nil (st stc : ScannerState) (line rest : List Char)
    (ha : advance_line st = some stc) (hl : stc.cur_line = some line)
    (hd : byteDrop line stc.cur_pos = some rest) : rest ≠ [] := by
  intro hnil
  subst hnil
  have hcan := advance_canonical st stc ha line hl
  have := byteDrop_add line stc.cur_pos [] hd
  simp only [utf8Len_nil] at this
  omega

/-- `next` reports `Err` only out of the lineless canonical state: the
payload is empty and the state (with its `cur_line` forced to `None`) is
exactly the canonical state, which is `⟨[], none, 0⟩`. -/
theorem next_error_inv (st : ScannerState) (e : List Char)
    (st' : ScannerState) (h : next st = some (Except.error e, st')) :
    e = [] ∧ st'.cur_line = none ∧ advance_line st = some st' := by
  cases ha : advance_line st with
  | none => simp [next, ha] at h
  | some stc =>
    cases hl : stc.cur_line with
    | none =>
      simp only [next, ha, hl, Option.some.injEq, Prod.mk.injEq,
        Except.error.injEq] at h
      have hstc := advance_none_state st stc ha hl
      subst hstc
      obtain ⟨he, hst⟩ := h
      subst he
      refine ⟨rfl, ?_, ?_⟩
      · rw [← hst]
      · rw [← hst]
    | some line =>
      cases hd : byteDrop line stc.cur_pos with
      | none => simp [next, ha, hl, hd] at h
      | some rest =>
        cases rest with
        | nil => exact absurd rfl (canonical_rest_ne_nil st stc line [] ha hl hd)
        | cons c cs => simp [next, ha, hl, hd] at h

/-- An `expect` failure returns the canonical state untouched. -/
theorem expect_error_inv (p : List Char) (st : ScannerState) (e : List Char)
    (st' : ScannerState) (h : expect p st = some (Except.error e, st')) :
    advance_line st = some st' := by
  cases ha : advance_line st with
  | none => simp [expect, ha] at h
  | some stc =>
    cases hl : stc.cur_line with
    | none =>
      simp only [expect, ha, hl, Option.some.injEq, Prod.mk.injEq] at h
      rw [h.2]
    | some line =>
      cases hd : byteDrop line stc.cur_pos with
      | none => simp [expect, ha, hl, hd] at h
      | some rest =>
        cases hfs : firstSplit p rest with
        | none =>
          simp only [expect, ha, hl, hd, hfs, Option.some.injEq,
            Prod.mk.injEq] at h
          rw [h.2]
        | some q =>
          obtain ⟨pre, post⟩ := q
          cases pre with
          | nil => simp [expect, ha, hl, hd, hfs] at h
          | cons a pre' =>
            simp only [expect, ha, hl, hd, hfs, Option.some.injEq,
              Prod.mk.injEq] at h
            rw [h.2]

/-- A `scan_str` failure returns the canonical state untouched. -/
theorem scan_str_error_inv (d : List Nat) (st : ScannerState) (e : List Char)
    (d' : List Nat) (st' : ScannerState)
    (h : scan_str d st = some (Except.error e, d', st')) :
    advance_line st = some st' := by
  cases ha : advance_line st with
  | none => simp [scan_str, ha] at h
  | some stc =>
    cases hl : stc.cur_line with
    | none =>
      simp only [scan_str, ha, hl, Option.some.injEq, Prod.mk.injEq] at h
      rw [h.2.2]
    | some line =>
      cases hd : byteDrop line stc.cur_pos with
      | none => simp [scan_str, ha, hl, hd] at h
      | some rest =>
        cases hc : copy_str (utf8Encode rest) d (min d.length (utf8Len rest)) with
        | none => simp [scan_str, ha, hl, hd, hc] at h
        | some res' => simp [scan_str, ha, hl, hd, hc] at h

/-- A `scan_str_to` failure returns the canonical state untouched. -/
theorem scan_str_to_error_inv (d : List Nat) (p : List Char)
    (st : ScannerState) (e : List Char) (d' : List Nat) (st' : ScannerState)
    (h : scan_str_to d p st = some (Except.error e, d', st')) :
    advance_line st = some st' := by
  cases ha : advance_line st with
  | none => simp [scan_str_to, ha] at h
  | some stc =>
    cases hl : stc.cur_line with
    | none =>
      simp only [scan_str_to, ha, hl, Option.some.injEq, Prod.mk.injEq] at h
      rw [h.2.2]
    | some line =>
      cases hd : byteDrop line stc.cur_pos with
      | none => simp [scan_str_to, ha, hl, hd] at h
      | some rest =>
        cases hfs : firstSplit p rest with
        | none =>
          simp only [scan_str_to, ha, hl, hd, hfs, Option.some.injEq,
            Prod.mk.injEq] at h
          rw [h.2.2]
        | some q =>
          obtain ⟨pre, post⟩ := q
          cases hc : copy_str (utf8Encode rest) d (min d.length (utf8Len pre)) with
          | none => simp [scan_str_to, ha, hl, hd, hfs, hc] at h
          | some res' => simp [scan_str_to, ha, hl, hd, hfs, hc] at h

/-- A `scan_to` failure never changes `cur_line` beyond what the initial
canonicalization did.  (Unlike the other operations, `scan_to` can fail
with an advanced CURSOR: when the delimiter is found but the text before
it does not parse, the cursor has already moved past the delimiter; the
buffered line itself is still never discarded by a failure.) -/
theorem scan_to_error_inv {T : Type} (parse : List Char → Option T)
    (p : List Char) (st : ScannerState) (e : List Char) (st' : ScannerState)
    (h : scan_to parse p st = some (Except.error e, st')) :
    ∃ stc, advance_line st = some stc ∧ st'.cur_line = stc.cur_line := by
  cases ha : advance_line st with
  | none => simp [scan_to, ha] at h
  | some stc =>
    refine ⟨stc, rfl, ?_⟩
    cases hl : stc.cur_line with
    | none =>
      simp only [scan_to, ha, hl, Option.some.injEq, Prod.mk.injEq] at h
      rw [← h.2]; exact hl
    | some line =>
      cases hd : byteDrop line stc.cur_pos with
      | none => simp [scan_to, ha, hl, hd] at h
      | some rest =>
        cases hfs : firstSplit p rest with
        | none =>
          simp only [scan_to, ha, hl, hd, hfs, Option.some.injEq,
            Prod.mk.injEq] at h
          rw [← h.2]; exact hl
        | some q =>
          obtain ⟨pre, post⟩ := q
          simp only [scan_to, ha, hl, hd, hfs, Option.some.injEq,
            Prod.mk.injEq] at h
          rw [← h.2]

/-- `scan` always discards the buffered line: its output state is the
canonical state with `cur_line` forced to `None`. -/
theorem scan_discards {T : Type} (parse : List Char → Option T)
    (st : ScannerState) (r : Except (List Char) T) (st' : ScannerState)
    (h : scan parse st = some (r, st')) : st'.cur_line = none := by
  cases ha : advance_line st with
  | none => simp [scan, ha] at h
  | some stc =>
    cases hl : stc.cur_line with
    | none =>
      simp only [scan, ha, hl, Option.some.injEq, Prod.mk.injEq] at h
      rw [← h.2]
    | some line =>
      cases hd : byteDrop line stc.cur_pos with
      | none => simp [scan, ha, hl, hd] at h
      | some rest =>
        simp only [scan, ha, hl, hd, Option.some.injEq, Prod.mk.injEq] at h
        rw [← h.2]

end LineReadScanner

/-- The states a scanner built on `input` can be in when control is back
with the caller: the freshly constructed state, and every state a public
operation returns from a reachable state (a panicking call returns no
state). -/
inductive Reachable (input : List Char) : ScannerState → Prop where
  | new : Reachable input (LineReadScanner.new input)
  | expect (p : List Char) (r : Except (List Char) Nat) (st st' : ScannerState) :
      Reachable input st → LineReadScanner.expect p st = some (r, st') →
      Reachable input st'
  | has_next (b : Bool) (st st' : ScannerState) :
      Reachable input st → LineReadScanner.has_next st = some (b, st') →
      Reachable input st'
  | next (r : Except (List Char) Char) (st st' : ScannerState) :
      Reachable input st → LineReadScanner.next st = some (r, st') →
      Reachable input st'
  | scan_str (result : List Nat) (r : Except (List Char) Nat)
      (result' : List Nat) (st st' : ScannerState) :
      Reachable input st →
      LineReadScanner.scan_str result st = some (r, result', st') →
      Reachable input st'
  | scan_str_to (result : List Nat) (p : List Char)
      (r : Except (List Char) Nat) (result' : List Nat) (st st' : ScannerState) :
      Reachable input st →
      LineReadScanner.scan_str_to result p st = some (r, result', st') →
      Reachable input st'
  | scan {T : Type} (parse : List Char → Option T) (r : Except (List Char) T)
      (st st' : ScannerState) :
      Reachable input st → LineReadScanner.scan parse st = some (r, st') →
      Reachable input st'
  | scan_to {T : Type} (parse : List Char → Option T) (p : List Char)
      (r : Except (List Char) T) (st st' : ScannerState) :
      Reachable input st → LineReadScanner.scan_to parse p st = some (r, st') →
      Reachable input st'

/-- Every reachable state has `cur_pos ≤` the byte length of the buffered
line. -/
theorem reachable_cursor_le (input : List Char) (st : ScannerState)
    (h : Reachable input st) :
    ∀ l, st.cur_line = some l → st.cur_pos ≤ utf8Len l := by
  induction h with
  | new => intro l h2; cases h2
  | expect p r st st' _ hop _ =>
    exact LineReadScanner.shape_cursor_le st st'
      (LineReadScanner.expect_shape p st r st' hop)
  | has_next b st st' _ hop _ =>
    exact LineReadScanner.shape_cursor_le st st'
      (LineReadScanner.has_next_shape st b st' hop)
  | next r st st' _ hop _ =>
    exact LineReadScanner.shape_cursor_le st st'
      (LineReadScanner.next_shape st r st' hop)
  | scan_str result r result' st st' _ hop _ =>
    exact LineReadScanner.shape_cursor_le st st'
      (LineReadScanner.scan_str_shape result st r result' st' hop)
  | scan_str_to result p r result' st st' _ hop _ =>
    exact LineReadScanner.shape_cursor_le st st'
      (LineReadScanner.scan_str_to_shape result p st r result' st' hop)
  | scan parse r st st' _ hop _ =>
    exact LineReadScanner.shape_cursor_le st st'
      (LineReadScanner.scan_shape parse st r st' hop)
  | scan_to parse p r st st' _ hop _ =>
    exact LineReadScanner.shape_cursor_le st st'
      (LineReadScanner.scan_to_shape parse p st r st' hop)

/-- Rust `str::is_char_boundary`: `pos` is a byte offset at which the
string `l` may be sliced without panicking. -/
def isBoundary (l : List Char) (pos : Nat) : Bool := (byteDrop l pos).isSome

/-! ## The claims -/

/-- **C1**: the claim that after any sequence of public operations the
cursor always lies on a UTF-8 character boundary — and in particular that
`scan_str` never leaves it inside a multi-byte character — is violated by
the code: `scan_str` advances the cursor by `min (result.len) (rest.len)`
BYTES, a count cut off by the destination's byte capacity with no regard
for character boundaries.  On input `"é!"` with a 1-byte destination the
cursor lands on byte offset 1, inside the 2-byte `'é'`; the next slicing
operation (here `next`) then panics, in conflict with the boundary
invariant the code's own slicing asserts. -/
theorem c1_scan_str_breaks_utf8_boundary :
    LineReadScanner.scan_str [0] (LineReadScanner.new ['é', '!']) =
      some (Except.ok 1, [0xC3], ⟨[], some ['é', '!'], 1⟩) ∧
    isBoundary ['é', '!'] 1 = false ∧
    LineReadScanner.next ⟨[], some ['é', '!'], 1⟩ = none :=
  ⟨rfl, rfl, rfl⟩

/-- **C2** (counterexample to the claim as stated): `expect "ab"` on the
one-line input `"ab"` succeeds, returns control to the caller with
`cur_line = Some "ab"` still buffered, and leaves `cur_pos = 2`, which is
NOT strictly less than the line's byte length 2. -/
theorem c2_counterexample :
    LineReadScanner.expect ['a', 'b'] (LineReadScanner.new ['a', 'b']) =
      some (Except.ok 2, ⟨[], some ['a', 'b'], 2⟩) ∧
    ¬ ((⟨[], some ['a', 'b'], 2⟩ : ScannerState).cur_pos <
        utf8Len ['a', 'b']) :=
  ⟨rfl, by decide⟩

/-- **C2** (amended): after any sequence of public operations, if
`current_line` is `Some` then `cursor ≤` the line's byte length (the
cursor never runs past the end of the buffered line); the strict
inequality `cursor < length` holds not whenever control returns but
whenever the scanner canonicalizes through `advance_line`, i.e. at the
start of the next operation — a fully consumed line may remain buffered
as `Some` until then. -/
theorem c2_cursor_le_invariant (input : List Char) (st : ScannerState)
    (h : Reachable input st) :
    (∀ l, st.cur_line = some l → st.cur_pos ≤ utf8Len l) ∧
    (∀ st' l, LineReadScanner.advance_line st = some st' →
      st'.cur_line = some l → st'.cur_pos < utf8Len l) :=
  ⟨reachable_cursor_le input st h,
   fun st' l ha hl => LineReadScanner.advance_canonical st st' ha l hl⟩

/-- **C2** witness: the amended invariant evaluated on the state reached
by `expect "ab"` from input `"ab"` (cursor 2, line of byte length 2) and
on the canonicalization of a fresh scanner over `"x"`. -/
theorem c2_cursor_le_invariant_witness :
    2 ≤ utf8Len ['a', 'b'] ∧ 0 < utf8Len ['x'] :=
  ⟨(c2_cursor_le_invariant ['a', 'b'] ⟨[], some ['a', 'b'], 2⟩
      (Reachable.expect ['a', 'b'] (Except.ok 2)
        (LineReadScanner.new ['a', 'b']) ⟨[], some ['a', 'b'], 2⟩
        Reachable.new rfl)).1 ['a', 'b'] rfl,
   (c2_cursor_le_invariant ['x'] (LineReadScanner.new ['x'])
      Reachable.new).2 ⟨[], some ['x'], 0⟩ ['x'] rfl rfl⟩

/-- **C3**: `next` fails only from the exhausted canonical state (so only
when no unread character remains), with an empty payload and
`cur_line = None`; a failing `expect`, `scan_str` or `scan_str_to`
returns the canonical state untouched; a failing `scan_to` never changes
`cur_line` beyond canonicalization; and `scan` discards the line
unconditionally, on success and on failure alike. -/
theorem c3_next_failure_semantics (st : ScannerState) :
    (∀ e st', LineReadScanner.next st = some (Except.error e, st') →
      e = [] ∧ st'.cur_line = none ∧
      LineReadScanner.advance_line st = some st') ∧
    (∀ p e st', LineReadScanner.expect p st = some (Except.error e, st') →
      LineReadScanner.advance_line st = some st') ∧
    (∀ d e d' st',
      LineReadScanner.scan_str d st = some (Except.error e, d', st') →
      LineReadScanner.advance_line st = some st') ∧
    (∀ d p e d' st',
      LineReadScanner.scan_str_to d p st = some (Except.error e, d', st') →
      LineReadScanner.advance_line st = some st') ∧
    (∀ (T : Type) (parse : List Char → Option T) p e st',
      LineReadScanner.scan_to parse p st = some (Except.error e, st') →
      ∃ stc, LineReadScanner.advance_line st = some stc ∧
        st'.cur_line = stc.cur_line) ∧
    (∀ (T : Type) (parse : List Char → Option T) r st',
      LineReadScanner.scan parse st = some (r, st') → st'.cur_line = none) :=
  ⟨fun e st' h => LineReadScanner.next_error_inv st e st' h,
   fun p e st' h => LineReadScanner.expect_error_inv p st e st' h,
   fun d e d' st' h => LineReadScanner.scan_str_error_inv d st e d' st' h,
   fun d p e d' st' h =>
     LineReadScanner.scan_str_to_error_inv d p st e d' st' h,
   fun _ parse p e st' h =>
     LineReadScanner.scan_to_error_inv parse p st e st' h,
   fun _ parse r st' h => LineReadScanner.scan_discards parse st r st' h⟩

/-- **C3** witness: `next` on the empty input fails with empty payload,
exhausted state. -/
theorem c3_next_failure_semantics_witness :
    ([] : List Char) = [] ∧
    (⟨[], none, 0⟩ : ScannerState).cur_line = none ∧
    LineReadScanner.advance_line (LineReadScanner.new []) =
      some ⟨[], none, 0⟩ :=
  (c3_next_failure_semantics (LineReadScanner.new [])).1 [] ⟨[], none, 0⟩ rfl

/-- **C4**: with a line available, `scan` parses the entire remaining
suffix of the line; a parse failure carries that suffix as payload; and
on success and failure alike the whole line is discarded
(`cur_line = None`). -/
theorem c4_scan_line_terminal (T : Type) (parse : List Char → Option T)
    (st stc : ScannerState) (line rest : List Char)
    (ha : LineReadScanner.advance_line st = some stc)
    (hl : stc.cur_line = some line)
    (hd : byteDrop line stc.cur_pos = some rest) :
    LineReadScanner.scan parse st =
      some (LineReadScanner.scan_internal parse rest,
        { stc with cur_line := none }) ∧
    (parse rest = none →
      LineReadScanner.scan parse st =
        some (Except.error rest, { stc with cur_line := none })) ∧
    (∀ r st', LineReadScanner.scan parse st = some (r, st') →
      st'.cur_line = none) := by
  refine ⟨?_, ?_, ?_⟩
  · simp only [LineReadScanner.scan, ha, hl, hd]
  · intro hp
    simp only [LineReadScanner.scan, ha, hl, hd,
      LineReadScanner.scan_internal, hp]
  · intro r st' h
    exact LineReadScanner.scan_discards parse st r st' h

/-- **C4** witness: `scan` of the whole line `"a"` (with an infallible
parse) returns the suffix and discards the line. -/
theorem c4_scan_line_terminal_witness :
    LineReadScanner.scan (fun s => some s) (LineReadScanner.new ['a']) =
      some (Except.ok ['a'], ⟨[], none, 0⟩) :=
  (c4_scan_line_terminal (List Char) (fun s => some s)
    (LineReadScanner.new ['a']) ⟨[], some ['a'], 0⟩ ['a'] ['a']
    rfl rfl rfl).1

/-- **C5**: when the delimiter pattern has no occurrence in the remainder,
`scan_str_to` and `scan_to` fail with the full unconsumed remainder as
payload and return the canonical state — and, for `scan_str_to`, the
destination buffer — completely unchanged: no fallback consumes to the
end of the line. -/
theorem c5_delimiter_not_found (T : Type) (parse : List Char → Option T)
    (d : List Nat) (p : List Char) (st stc : ScannerState)
    (line rest : List Char)
    (ha : LineReadScanner.advance_line st = some stc)
    (hl : stc.cur_line = some line)
    (hd : byteDrop line stc.cur_pos = some rest)
    (hfs : firstSplit p rest = none) :
    LineReadScanner.scan_str_to d p st = some (Except.error rest, d, stc) ∧
    LineReadScanner.scan_to parse p st = some (Except.error rest, stc) := by
  constructor
  · simp only [LineReadScanner.scan_str_to, ha, hl, hd, hfs]
  · simp only [LineReadScanner.scan_to, ha, hl, hd, hfs]

/-- **C5** witness: pattern `"z"` never occurs in `"ab"`; both operations
fail with payload `"ab"`, untouched state and buffer. -/
theorem c5_delimiter_not_found_witness :
    LineReadScanner.scan_str_to [0, 0] ['z'] (LineReadScanner.new ['a', 'b']) =
      some (Except.error ['a', 'b'], [0, 0], ⟨[], some ['a', 'b'], 0⟩) ∧
    LineReadScanner.scan_to (fun s => some s) ['z']
        (LineReadScanner.new ['a', 'b']) =
      some (Except.error ['a', 'b'], ⟨[], some ['a', 'b'], 0⟩) :=
  c5_delimiter_not_found (List Char) (fun s => some s) [0, 0] ['z']
    (LineReadScanner.new ['a', 'b']) ⟨[], some ['a', 'b'], 0⟩
    ['a', 'b'] ['a', 'b'] rfl rfl rfl rfl

/-- **C6**: with a line available, `scan_str` always succeeds; it copies
exactly `min (destination byte length) (remainder byte length)` bytes of
the remainder onto the front of the destination, leaves the destination's
trailing bytes unchanged, advances the cursor by exactly that byte count,
and returns the destination's total capacity `d.length` — not the number
of bytes copied. -/
theorem c6_scan_str_semantics (d : List Nat) (st stc : ScannerState)
    (line rest : List Char)
    (ha : LineReadScanner.advance_line st = some stc)
    (hl : stc.cur_line = some line)
    (hd : byteDrop line stc.cur_pos = some rest) :
    LineReadScanner.scan_str d st =
      some (Except.ok d.length,
        (utf8Encode rest).take (min d.length (utf8Len rest)) ++
          d.drop (min d.length (utf8Len rest)),
        { stc with cur_pos := stc.cur_pos + min d.length (utf8Len rest) }) := by
  have hcopy : copy_str (utf8Encode rest) d (min d.length (utf8Len rest)) =
      some ((utf8Encode rest).take (min d.length (utf8Len rest)) ++
        d.drop (min d.length (utf8Len rest))) := by
    unfold copy_str
    rw [if_pos (Nat.min_le_left _ _)]
  simp only [LineReadScanner.scan_str, ha, hl, hd, hcopy]

/-- **C6** witness: a 3-byte destination on the 2-byte line `"ab"` gets
its first two bytes overwritten with `"ab"`, keeps its third byte, the
cursor advances by 2, and the result value is the capacity 3. -/
theorem c6_scan_str_semantics_witness :
    LineReadScanner.scan_str [0, 0, 0] (LineReadScanner.new ['a', 'b']) =
      some (Except.ok 3, [97, 98, 0], ⟨[], some ['a', 'b'], 2⟩) :=
  c6_scan_str_semantics [0, 0, 0] (LineReadScanner.new ['a', 'b'])
    ⟨[], some ['a', 'b'], 0⟩ ['a', 'b'] ['a', 'b'] rfl rfl rfl

/-- **C7**: `expect p` succeeds iff the first match of `p` in the
remainder is at index 0 (the text before the match is empty); on success
it advances the cursor by the matched byte length and returns that
length, and on failure — first match elsewhere, or no match — it fails
with the unconsumed remainder as payload and returns the canonical state
unchanged.  Concretely, `expect "Hello"` on `"Hello, world!"` returns 5,
and `expect "xyz"` on the same fresh input fails with the cursor at 0. -/
theorem c7_expect_semantics :
    (∀ (p : List Char) (st stc : ScannerState) (line rest : List Char),
      LineReadScanner.advance_line st = some stc →
      stc.cur_line = some line →
      byteDrop line stc.cur_pos = some rest →
      ((∀ post, firstSplit p rest = some ([], post) →
          LineReadScanner.expect p st =
            some (Except.ok (utf8Len p),
              { stc with cur_pos := stc.cur_pos + utf8Len p })) ∧
       (∀ a pre post, firstSplit p rest = some (a :: pre, post) →
          LineReadScanner.expect p st = some (Except.error rest, stc)) ∧
       (firstSplit p rest = none →
          LineReadScanner.expect p st = some (Except.error rest, stc)) ∧
       ((∃ n st', LineReadScanner.expect p st = some (Except.ok n, st')) ↔
          ∃ post, firstSplit p rest = some ([], post)))) ∧
    LineReadScanner.expect ['H', 'e', 'l', 'l', 'o']
        (LineReadScanner.new "Hello, world!".data) =
      some (Except.ok 5, ⟨[], some "Hello, world!".data, 5⟩) ∧
    LineReadScanner.expect ['x', 'y', 'z']
        (LineReadScanner.new "Hello, world!".data) =
      some (Except.error "Hello, world!".data,
        ⟨[], some "Hello, world!".data, 0⟩) := by
  refine ⟨?_, rfl, rfl⟩
  intro p st stc line rest ha hl hd
  refine ⟨?_, ?_, ?_, ?_⟩
  · intro post hfs
    simp only [LineReadScanner.expect, ha, hl, hd, hfs]
  · intro a pre post hfs
    simp only [LineReadScanner.expect, ha, hl, hd, hfs]
  · intro hfs
    simp only [LineReadScanner.expect, ha, hl, hd, hfs]
  · constructor
    · rintro ⟨n, st', h⟩
      cases hfs : firstSplit p rest with
      | none => simp [LineReadScanner.expect, ha, hl, hd, hfs] at h
      | some q =>
        obtain ⟨pre, post⟩ := q
        cases pre with
        | nil => exact ⟨post, rfl⟩
        | cons a pre' =>
          simp [LineReadScanner.expect, ha, hl, hd, hfs] at h
    · rintro ⟨post, hfs⟩
      exact ⟨utf8Len p, { stc with cur_pos := stc.cur_pos + utf8Len p },
        by simp only [LineReadScanner.expect, ha, hl, hd, hfs]⟩

/-- **C7** witness: the quantified part of the theorem evaluated on the
fresh `"Hello, world!"` scanner with pattern `"Hello"` matching at 0. -/
theorem c7_expect_semantics_witness :
    LineReadScanner.expect ['H', 'e', 'l', 'l', 'o']
        (LineReadScanner.new "Hello, world!".data) =
      some (Except.ok (utf8Len ['H', 'e', 'l', 'l', 'o']),
        ⟨[], some "Hello, world!".data, 0 + utf8Len ['H', 'e', 'l', 'l', 'o']⟩) :=
  (c7_expect_semantics.1 ['H', 'e', 'l', 'l', 'o']
    (LineReadScanner.new "Hello, world!".data)
    ⟨[], some "Hello, world!".data, 0⟩ "Hello, world!".data
    "Hello, world!".data rfl rfl rfl).1 ", world!".data rfl

/-- **C8**: `has_next` is idempotent: if a call returns `b` leaving state
`st₁`, an immediate second call returns the same `b` and leaves `st₁`
exactly as it was. -/
theorem c8_has_next_idempotent (st st₁ : ScannerState) (b : Bool)
    (h : LineReadScanner.has_next st = some (b, st₁)) :
    LineReadScanner.has_next st₁ = some (b, st₁) := by
  cases ha : LineReadScanner.advance_line st with
  | none => simp [LineReadScanner.has_next, ha] at h
  | some stc =>
    simp only [LineReadScanner.has_next, ha, Option.map_some',
      Option.some.injEq, Prod.mk.injEq] at h
    obtain ⟨hb, hs⟩ := h
    subst hs
    subst hb
    have hidem := LineReadScanner.advance_idem st stc ha
    simp [LineReadScanner.has_next, hidem]

/-- **C8** witness: on a fresh `"x"` scanner the first `has_next` yields
`(true, ⟨[], some "x", 0⟩)`; the theorem applied there gives the second
call verbatim. -/
theorem c8_has_next_idempotent_witness :
    LineReadScanner.has_next ⟨[], some ['x'], 0⟩ =
      some (true, ⟨[], some ['x'], 0⟩) :=
  c8_has_next_idempotent (LineReadScanner.new ['x']) ⟨[], some ['x'], 0⟩
    true rfl

/-- **C9**: the claim that a trailing newline is transparent — that every
operation behaves identically on input `L` and on `L ++ "\n"` — is
violated by the code: `read_line`'s trailing-newline test slices the raw
line one BYTE before its end, so when `L` ends in a multi-byte character
and has no trailing newline the slice is inside that character and
panics.  On `L = "é"`, `has_next` panics without the newline but returns
`true` with it. -/
theorem c9_trailing_newline_not_transparent :
    LineReadScanner.has_next (LineReadScanner.new ['é']) = none ∧
    LineReadScanner.has_next (LineReadScanner.new ['é', '\n']) =
      some (true, ⟨[], some ['é'], 0⟩) :=
  ⟨rfl, rfl⟩

/-- **C10**: at both `copy_str` call sites the copy count is bounded by
the destination's byte length (so the `assert!` in `copy_str` holds and
never panics) and by the source remainder's byte length (so the raw copy
reads no byte outside the source); consequently neither `scan_str` nor a
delimiter-matching `scan_str_to` can panic once a line and remainder are
available. -/
theorem c10_copy_str_call_site_bounds (d : List Nat) (p : List Char)
    (st stc : ScannerState) (line rest : List Char)
    (ha : LineReadScanner.advance_line st = some stc)
    (hl : stc.cur_line = some line)
    (hd : byteDrop line stc.cur_pos = some rest) :
    (min d.length (utf8Len rest) ≤ d.length ∧
     min d.length (utf8Len rest) ≤ (utf8Encode rest).length ∧
     LineReadScanner.scan_str d st ≠ none) ∧
    (∀ pre post, firstSplit p rest = some (pre, post) →
      min d.length (utf8Len pre) ≤ d.length ∧
      min d.length (utf8Len pre) ≤ (utf8Encode rest).length ∧
      LineReadScanner.scan_str_to d p st ≠ none) := by
  have hlen : (utf8Encode rest).length = utf8Len rest := length_utf8Encode rest
  refine ⟨⟨Nat.min_le_left _ _, ?_, ?_⟩, ?_⟩
  · rw [hlen]; exact Nat.min_le_right _ _
  · have hcopy : copy_str (utf8Encode rest) d (min d.length (utf8Len rest)) =
        some ((utf8Encode rest).take (min d.length (utf8Len rest)) ++
          d.drop (min d.length (utf8Len rest))) := by
      unfold copy_str
      rw [if_pos (Nat.min_le_left _ _)]
    simp [LineReadScanner.scan_str, ha, hl, hd, hcopy]
  · intro pre post hfs
    have hle : utf8Len pre ≤ utf8Len rest := by
      have := firstSplit_eq p rest pre post hfs
      rw [this, utf8Len_append, utf8Len_append]
      omega
    refine ⟨Nat.min_le_left _ _, ?_, ?_⟩
    · rw [hlen]
      exact le_trans (Nat.min_le_right _ _) hle
    · have hcopy : copy_str (utf8Encode rest) d (min d.length (utf8Len pre)) =
          some ((utf8Encode rest).take (min d.length (utf8Len pre)) ++
            d.drop (min d.length (utf8Len pre))) := by
        unfold copy_str
        rw [if_pos (Nat.min_le_left _ _)]
      simp [LineReadScanner.scan_str_to, ha, hl, hd, hfs, hcopy]

/-- **C10** witness: the bounds and non-panicking evaluated for a 1-byte
destination against the line `"ab"`. -/
theorem c10_copy_str_call_site_bounds_witness :
    min ([0] : List Nat).length (utf8Len ['a', 'b']) ≤
      ([0] : List Nat).length ∧
    min ([0] : List Nat).length (utf8Len ['a', 'b']) ≤
      (utf8Encode ['a', 'b']).length ∧
    LineReadScanner.scan_str [0] (LineReadScanner.new ['a', 'b']) ≠ none :=
  (c10_copy_str_call_site_bounds [0] ['b'] (LineReadScanner.new ['a', 'b'])
    ⟨[], some ['a', 'b'], 0⟩ ['a', 'b'] ['a', 'b'] rfl rfl rfl).1

end Darkly
